import Mathlib

/-!
Verification of the Spec-to-RustOS kernel core against its specification.

This file shallowly embeds the Rust data structures and operations that the
checked claims are about, and proves or refutes each claim:

* `sync/src/lib.rs` — the blocking mutex (`MutexBlocking`).
* `signal-impl/src/lib.rs` — the per-process signal subsystem (`SignalImpl`).
* `kernel-vm/src/lib.rs` — `AddressSpace` mapping, translation and cloning.
* `kernel-context/src/lib.rs` — `LocalContext` and the portal cache layout.
* `task-manage/src/lib.rs` — process/thread relations and wait reaping.
* `ch8/src/main.rs` — the threaded kernel: ELF loader, fork/exec, syscall
  dispatch decisions, pid allocation.

Machine integers are modelled as `Nat`/`Int`; bitsets as `Nat` with the
64-bit guards of the source made explicit; fallible operations (Rust panics)
return `Option`.
-/

/-! ## Blocking mutex (`sync/src/lib.rs`, `MutexBlocking`)

State is `MutexBlockingInner { locked: bool, waiting: VecDeque<ThreadId> }`.
`ThreadId` is modelled as `Nat`.
-/

structure MutexSt where
  locked : Bool
  waiting : List Nat
deriving DecidableEq, Repr

/-- `MutexBlocking::lock(tid)`: if locked, push the caller at the back of the
wait queue and return `false`; otherwise set `locked` and return `true`. -/
def MutexSt.lock (s : MutexSt) (tid : Nat) : MutexSt × Bool :=
  if s.locked then ({ s with waiting := s.waiting ++ [tid] }, false)
  else ({ s with locked := true }, true)

/-- `MutexBlocking::unlock()`: panics (`none`) when the mutex is not locked;
otherwise pops the front waiter and returns it (leaving `locked` set), or, if
the queue is empty, clears `locked` and returns `none`. -/
def MutexSt.unlock (s : MutexSt) : Option (MutexSt × Option Nat) :=
  if s.locked then
    match s.waiting with
    | t :: rest => some ({ s with waiting := rest }, some t)
    | [] => some ({ s with locked := false }, none)
  else none

/-- Perform the `lock` calls of the thread list `ts` in order, keeping the
resulting mutex state. -/
def MutexSt.lockAll (s : MutexSt) (ts : List Nat) : MutexSt :=
  ts.foldl (fun s t => (MutexSt.lock s t).1) s

/-- Run `n` successive `unlock` calls, collecting the returned waiters;
`none` if any of them panics. -/
def MutexSt.unlockRun : MutexSt → Nat → Option (MutexSt × List (Option Nat))
  | s, 0 => some (s, [])
  | s, n + 1 =>
    match s.unlock with
    | none => none
    | some (s1, r) =>
      match MutexSt.unlockRun s1 n with
      | none => none
      | some (s2, rs) => some (s2, r :: rs)

/-! ## Nonzero pid allocation (`ch8/src/main.rs`, `alloc_pid_nonzero`)

`ProcId::new()` returns the current value of a monotonically increasing
atomic counter (wrapping at `2^64`) and bumps it. `alloc_pid_nonzero` loops
until the returned value is nonzero. The loop is modelled with explicit
fuel; two iterations always suffice.
-/

/-- `ProcId::new()`: returns the stored counter value and the bumped counter
(`fetch_add(1)` on a `usize`, wrapping at `2 ^ 64`). -/
def procIdNew (c : Nat) : Nat × Nat := (c % 2 ^ 64, (c + 1) % 2 ^ 64)

/-- `alloc_pid_nonzero`'s `loop`, with fuel: draw a pid; return it unless it
is zero, in which case retry. -/
def allocPidLoop : Nat → Nat → Option (Nat × Nat)
  | 0, _ => none
  | fuel + 1, c =>
    let p := procIdNew c
    if p.1 ≠ 0 then some p else allocPidLoop fuel p.2

/-! ## Thread context (`kernel-context/src/lib.rs`, `LocalContext`)

Integer registers `x1..x31` (stored as `x[0..30]`), the saved pc (`sepc`)
and the two privilege flags. `a(n)` aliases `x(10 + n)`, i.e. slot `9 + n`.
-/

structure Ctx where
  x : Fin 31 → Nat
  sepc : Nat
  supervisor : Bool
  interrupt : Bool

/-- `*ctx.pc_mut() = pc`. -/
def Ctx.setPc (c : Ctx) (pc : Nat) : Ctx := { c with sepc := pc }

/-- `*ctx.a_mut(0) = v` — argument register 0 is `x10`, slot index 9. -/
def Ctx.setA0 (c : Ctx) (v : Nat) : Ctx :=
  { c with x := Function.update c.x ⟨9, by omega⟩ v }

/-! ## Signal subsystem (`signal-impl/src/lib.rs`)

`SignalSet` is a `usize` bitset; the source guards every bit operation with
`bit < usize::BITS` (= 64). Signal numbers follow `signal-defs`:
SIGKILL = 9, SIGCHLD = 17, SIGCONT = 18, SIGSTOP = 19, SIGURG = 23,
`MAX_SIG` = 31.
-/

/-- `SignalSet::add_bit`. -/
def SignalSet.add_bit (s bit : Nat) : Nat :=
  if bit < 64 then s ||| (1 <<< bit) else s

/-- Bitwise complement on a 64-bit word (`!m` on a `usize`). -/
def SignalSet.usize_not (m : Nat) : Nat := (2 ^ 64 - 1) ^^^ m

/-- `SignalSet::remove_bit` (`self.0 &= !(1 << bit)`). -/
def SignalSet.remove_bit (s bit : Nat) : Nat :=
  if bit < 64 then s &&& SignalSet.usize_not (1 <<< bit) else s

/-- `SignalSet::contain_bit`. -/
def SignalSet.contain_bit (s bit : Nat) : Bool :=
  decide (bit < 64) && s.testBit bit

/-- `u64::trailing_zeros`, as the source's `deliverable.trailing_zeros()`:
peel off low zero bits, with fuel 64 (so that `ctz 0 = 64`, as in Rust). -/
def ctzFuel : Nat → Nat → Nat
  | 0, _ => 0
  | fuel + 1, n => if n % 2 = 1 then 0 else ctzFuel fuel (n / 2) + 1

def ctz (n : Nat) : Nat := ctzFuel 64 n

/-- `SignalSet::find_first_one(mask)`: lowest set bit of
`self.0 & !mask.0` (the deliverable set), or `none` when that is empty. -/
def SignalSet.find_first_one (s mask : Nat) : Option Nat :=
  if s &&& SignalSet.usize_not mask = 0 then none
  else some (ctz (s &&& SignalSet.usize_not mask))

/-- `SignalAction { handler, mask }`. -/
structure SigAction where
  handler : Nat
  mask : Nat
deriving DecidableEq

/-- `HandlingSignal`: frozen by SIGSTOP, or running a user handler with the
pre-handler context saved. -/
inductive Handling where
  | frozen : Handling
  | userSignal : Ctx → Handling

/-- `SignalImpl`: pending set, mask, optional handling state, action table. -/
structure SigState where
  received : Nat
  mask : Nat
  handling : Option Handling
  actions : Nat → Option SigAction

/-- `SignalImpl::kill_code`. -/
def kill_code (signum : Nat) : Int := -(signum : Int)

/-- `SignalImpl::valid_index`: signal numbers `1..=31` are valid. -/
def valid_index (idx : Nat) : Option Nat :=
  if idx = 0 ∨ idx > 31 then none else some idx

/-- `SignalImpl::take_deliverable_signal`: find the lowest deliverable bit,
remove it from `received`, and return it if it is a valid signal number
(the bit is removed even when the number is invalid, as in the source). -/
def SigState.take_deliverable (s : SigState) : Option Nat × SigState :=
  match SignalSet.find_first_one s.received s.mask with
  | none => (none, s)
  | some bit =>
    let s1 : SigState := { s with received := SignalSet.remove_bit s.received bit }
    match valid_index bit with
    | some _ => (some bit, s1)
    | none => (none, s1)

/-- `SignalResult` (`signal/src/lib.rs`). -/
inductive SigResult where
  | noSignal : SigResult
  | isHandlingSignal : SigResult
  | ignored : SigResult
  | handled : SigResult
  | processKilled : Int → SigResult
  | processSuspended : SigResult
deriving DecidableEq

/-- `SignalImpl::handle_frozen`: leave the frozen state iff SIGCONT (18) is
pending and unmasked, consuming it. -/
def SigState.handle_frozen (s : SigState) : SigResult × SigState :=
  if SignalSet.contain_bit s.received 18 && !SignalSet.contain_bit s.mask 18 then
    (.handled, { s with received := SignalSet.remove_bit s.received 18,
                        handling := none })
  else (.processSuspended, s)

/-- `SignalImpl::handle_signals`: one delivery attempt, mirroring the source
branch for branch (SIGKILL check first, then the handling state, then the
lowest deliverable signal with its kill/stop/handler/ignore dispositions). -/
def SigState.handle_signals (s : SigState) (ctx : Ctx) : SigResult × SigState × Ctx :=
  if SignalSet.contain_bit s.received 9 && !SignalSet.contain_bit s.mask 9 then
    (.processKilled (kill_code 9),
     { s with received := SignalSet.remove_bit s.received 9 }, ctx)
  else
    match s.handling with
    | some .frozen =>
      let r := s.handle_frozen
      (r.1, r.2, ctx)
    | some (.userSignal _) => (.isHandlingSignal, s, ctx)
    | none =>
      match s.take_deliverable with
      | (none, s1) => (.noSignal, s1, ctx)
      | (some signum, s1) =>
        if signum = 9 then (.processKilled (kill_code 9), s1, ctx)
        else if signum = 19 then
          (.processSuspended, { s1 with handling := some .frozen }, ctx)
        else
          let action := (s1.actions signum).getD ⟨0, 0⟩
          if action.handler ≠ 0 then
            (.handled, { s1 with handling := some (.userSignal ctx) },
             (ctx.setPc action.handler).setA0 signum)
          else if signum = 17 ∨ signum = 23 ∨ signum = 18 then
            (.ignored, s1, ctx)
          else (.processKilled (kill_code signum), s1, ctx)

/-- `SignalImpl::sig_return`: takes the handling state; a frozen state is put
back and the call fails; a user-handler state restores the saved context. -/
def SigState.sig_return (s : SigState) (ctx : Ctx) : Bool × SigState × Ctx :=
  match s.handling with
  | none => (false, s, ctx)
  | some .frozen => (false, { s with handling := some .frozen }, ctx)
  | some (.userSignal saved) => (true, { s with handling := none }, saved)

/-- The `sigreturn` syscall handler of `ch8/src/main.rs`: 0 on success,
−1 on failure. -/
def sigreturnSys (s : SigState) (ctx : Ctx) : Int × SigState × Ctx :=
  let r := s.sig_return ctx
  (if r.1 then 0 else -1, r.2)

/-! ## Trap dispatch decision (`ch8/src/main.rs`, `rust_main` main loop)

After a trap, the dispatcher decides between terminating the current task
with an exit code (`exit_current_thread`), leaving it off the ready queue
(`make_current_blocked`), or re-enqueuing it (`make_current_suspend`).
`BLOCKED_RETURN = isize::MIN`.
-/

inductive TrapCause where
  | userEnvCall : TrapCause
  | supervisorTimer : TrapCause
  | otherTrap : TrapCause
deriving DecidableEq

inductive SyscallRes where
  | done : Int → SyscallRes
  | unsupported : SyscallRes
deriving DecidableEq

inductive NextAction where
  | exitWith : Int → NextAction
  | blockCur : NextAction
  | suspendCur : NextAction
deriving DecidableEq

def BLOCKED_RETURN : Int := -(2 ^ 63)

/-- The `UserEnvCall` arm of the dispatch loop: `Unsupported` exits with −2;
`EXIT` exits with the returned code; otherwise the signal verdict can kill,
and a `BLOCKED_RETURN` value blocks instead of suspending. -/
def syscallNext (isExit : Bool) (res : SyscallRes) (sig : SigResult) : NextAction :=
  match res with
  | .unsupported => .exitWith (-2)
  | .done ret =>
    if isExit then .exitWith ret
    else
      match sig with
      | .processKilled c => .exitWith c
      | _ => if ret = BLOCKED_RETURN then .blockCur else .suspendCur

/-- The `SupervisorTimer` arm: kill on a kill verdict, else suspend. -/
def timerNext (sig : SigResult) : NextAction :=
  match sig with
  | .processKilled c => .exitWith c
  | _ => .suspendCur

/-- The whole `match trap_cause.cause()`: any other trap exits with −3. -/
def dispatchNext (cause : TrapCause) (isExit : Bool) (res : SyscallRes)
    (sig : SigResult) : NextAction :=
  match cause with
  | .userEnvCall => syscallNext isExit res sig
  | .supervisorTimer => timerNext sig
  | .otherTrap => .exitWith (-3)

/-! ## Process-thread relations and waitpid (`task-manage/src/lib.rs`,
`ch8/src/main.rs`)

`ProcThreadRel` keeps live children and `(dead child, exit code)` pairs;
`PThreadManager::wait` dispatches on the argument (`usize::MAX` means "any
child") and the `waitpid` syscall of ch8 post-processes the result. Only the
fields the wait path touches are modelled. Pids are `Nat`, exit codes `Int`.
-/

def USIZE_MAX : Nat := 2 ^ 64 - 1

structure PTRel where
  children : List Nat
  deadChildren : List (Nat × Int)
deriving DecidableEq

/-- `ProcThreadRel::wait_any_child`: `none` when there is no child at all;
the first dead child (removed) when one exists; otherwise the reserved
sentinel `(usize::MAX - 1, -1)`. -/
def PTRel.wait_any_child (r : PTRel) : Option (Nat × Int) × PTRel :=
  if r.children = [] ∧ r.deadChildren = [] then (none, r)
  else
    match r.deadChildren with
    | d :: rest => (some d, { r with deadChildren := rest })
    | [] => (some (USIZE_MAX - 1, -1), r)

/-- `Vec::remove` at the position of the first dead child with the given
pid: the removed pair and the remaining list, or `none`. -/
def removeFirstDead : List (Nat × Int) → Nat → Option ((Nat × Int) × List (Nat × Int))
  | [], _ => none
  | d :: rest, pid =>
    if d.1 = pid then some (d, rest)
    else
      match removeFirstDead rest pid with
      | none => none
      | some (x, rest2) => some (x, d :: rest2)

/-- `ProcThreadRel::wait_child(pid)`: a dead child with that pid is removed
and returned; a live one yields the sentinel; otherwise `none`. -/
def PTRel.wait_child (r : PTRel) (pid : Nat) : Option (Nat × Int) × PTRel :=
  match removeFirstDead r.deadChildren pid with
  | some (d, rest) => (some d, { r with deadChildren := rest })
  | none =>
    if pid ∈ r.children then (some (USIZE_MAX - 1, -1), r) else (none, r)

/-- `SyscallContext::waitpid` of ch8: `pid < -1` is rejected; `pid = -1`
waits for any child (`ProcId::from_usize(usize::MAX)`); a sentinel result
`(usize::MAX - 1, -1)` becomes −2; a reaped `(pid, code)` returns the pid
and writes `code` through `code_ptr` when it is non-null; `none` is −1.
The third component is the exit code written to user memory, if any. -/
def waitpidSys (r : PTRel) (pid : Int) (ptrNull : Bool) : Int × PTRel × Option Int :=
  if pid < -1 then (-1, r, none)
  else
    let child : Nat := if pid = -1 then USIZE_MAX else pid.toNat
    let res := if child = USIZE_MAX then r.wait_any_child else r.wait_child child
    match res with
    | (some pc, r1) =>
      if pc.1 = USIZE_MAX - 1 ∧ pc.2 = -1 then (-2, r1, none)
      else if ptrNull then ((pc.1 : Int), r1, none)
      else ((pc.1 : Int), r1, some pc.2)
    | (none, r1) => (-1, r1, none)

/-! ## Portal cache layout (`kernel-context/src/lib.rs` foreign module,
`ch8/src/main.rs` trampoline assembly)

`PortalCache` is the `#[repr(C)]` Rust record the kernel fills in before a
context switch; `MultislotPortal::cache_offset` places the cache slots after
the 8-byte slot-count header and the 256-byte code region. The
`__ch8_portal_code` / `__ch8_portal_trap` assembly accesses the slot through
fixed byte offsets relative to the slot base address in `a0`/`sscratch`.
-/

inductive PField where
  | a0 : PField
  | a1 : PField
  | satp : PField
  | sstatus : PField
  | sepc : PField
  | stvec : PField
  | sscratch : PField
deriving DecidableEq

/-- Byte offsets of the fields of the Rust struct
`PortalCache { satp, sepc, a0, sstatus }` (`#[repr(C)]`, four `usize`
fields); the other portal quantities have no field in the struct. -/
def portalCacheFieldOffset : PField → Option Nat
  | .satp => some 0
  | .sepc => some 8
  | .a0 => some 16
  | .sstatus => some 24
  | _ => none

/-- `size_of::<PortalCache>()`. -/
def portalCacheSize : Nat := 32

/-- `MultislotPortal::cache_offset(index)`:
`size_of::<usize>() + PORTAL_CODE_SIZE + index * size_of::<PortalCache>()`. -/
def cache_offset (index : Nat) : Nat := 8 + 256 + index * portalCacheSize

/-- `MultislotPortal::calculate_size(slots)`. -/
def calculate_size (slots : Nat) : Nat := 8 + 256 + slots * portalCacheSize

/-- Slot-relative byte offsets at which the `__ch8_portal_code` and
`__ch8_portal_trap` assembly reads and writes each quantity
(`sd a1, 8(a0)`; `ld a1, 16(a0)`/`csrrw a1, satp, a1`; `ld a1, 24(a0)`/
`csrw sstatus, a1`; `ld a1, 32(a0)`/`csrw sepc, a1`; `sd a1, 40(a0)` for
stvec; `sd a1, 48(a0)` for sscratch; `ld a0, 0(a0)`). -/
def portalAsmFieldOffset : PField → Nat
  | .a0 => 0
  | .a1 => 8
  | .satp => 16
  | .sstatus => 24
  | .sepc => 32
  | .stvec => 40
  | .sscratch => 48

/-- The byte extent of a slot as the trampoline uses it (highest offset 48
plus 8 bytes). -/
def portalAsmSlotSize : Nat := 56

/-- Modelled from the spec: the claimed 56-byte cache-slot layout
`{0:a0, 8:a1, 16:satp, 24:sstatus, 32:sepc, 40:stvec, 48:sscratch}`. -/
def specSlotOffset : PField → Nat
  | .a0 => 0
  | .a1 => 8
  | .satp => 16
  | .sstatus => 24
  | .sepc => 32
  | .stvec => 40
  | .sscratch => 48

/-- Modelled from the spec: slot `i` starts at `8 + CODE_SIZE + 56 * i`
(with `CODE_SIZE = 256`). -/
def specCacheOffset (i : Nat) : Nat := 8 + 256 + 56 * i

/-! ## Process state and exec (`ch8/src/main.rs`, `Process`)

Only the fields `Process::exec` touches are modelled; file handles, spaces
and synchronization objects are abstracted by identifiers.
-/

structure ProcessSt where
  pid : Nat
  spaceId : Nat
  fd_table : List (Option Nat)
  signal : SigState
  thread_stacks : List (Nat × Nat)
  waittid_waiters : List (Nat × List Nat)
  condvar_wait_mutex : List (Nat × Nat)
  semaphores : List Nat
  mutexes : List (Option Nat)
  condvars : List Nat

/-- `Process::exec` after `load_user_space_from_elf` and `map_thread_stack`
succeed with a new address space: the old space is replaced (and freed),
the stack-slot map is cleared and re-seeded with slot 0 for the calling
thread, the waiter lists, condvar bookkeeping and sync-object vectors are
cleared, and the signal state is cleared (`Signal::clear`). The
file-descriptor table is not touched. On a load failure the method returns
before any of these mutations. -/
def ProcessSt.exec (p : ProcessSt) (current_tid : Nat) (newSpace : Nat) : ProcessSt :=
  { p with
    spaceId := newSpace
    thread_stacks := [(current_tid, 0)]
    waittid_waiters := []
    condvar_wait_mutex := []
    semaphores := []
    mutexes := []
    condvars := []
    signal := ⟨0, 0, none, fun _ => none⟩ }

/-! ## Bitset lemmas -/

theorem ctzFuel_spec :
    ∀ fuel n : Nat, n ≠ 0 → n < 2 ^ fuel →
      n.testBit (ctzFuel fuel n) = true ∧
      ∀ j, j < ctzFuel fuel n → n.testBit j = false := by
  intro fuel
  induction fuel with
  | zero => intro n h0 hlt; norm_num at hlt; omega
  | succ f ih =>
    intro n h0 hlt
    by_cases hodd : n % 2 = 1
    · refine ⟨by simp [ctzFuel, hodd, Nat.testBit_zero], ?_⟩
      intro j hj
      simp [ctzFuel, hodd] at hj
    · have h2 : n / 2 ≠ 0 := by omega
      have hlt2 : n / 2 < 2 ^ f := by
        have hp : 2 ^ (f + 1) = 2 ^ f * 2 := by ring
        omega
      obtain ⟨ih1, ih2⟩ := ih (n / 2) h2 hlt2
      have hc : ctzFuel (f + 1) n = ctzFuel f (n / 2) + 1 := by
        simp [ctzFuel, hodd]
      refine ⟨by rw [hc, Nat.testBit_succ]; exact ih1, ?_⟩
      intro j hj
      match j with
      | 0 => simp [Nat.testBit_zero]; omega
      | j + 1 =>
        rw [Nat.testBit_succ]
        exact ih2 j (by omega)

theorem lt_two_pow_of_bits (w n : Nat) (h : ∀ i, n.testBit i = true → i < w) :
    n < 2 ^ w := by
  by_contra hn
  push_neg at hn
  have hpos : 0 < 2 ^ w := Nat.pos_pow_of_pos w (by norm_num)
  have hsh : n >>> w ≠ 0 := by
    rw [Nat.shiftRight_eq_div_pow]
    have := (Nat.one_le_div_iff hpos).mpr hn
    omega
  obtain ⟨i, hi, -⟩ := Nat.exists_most_significant_bit hsh
  have hbit : n.testBit (w + i) = true := by rw [← Nat.testBit_shiftRight]; exact hi
  have := h _ hbit
  omega

theorem testBit_deliverable (recv mask i : Nat) (h : recv < 2 ^ 64) :
    (recv &&& SignalSet.usize_not mask).testBit i
      = (recv.testBit i && !mask.testBit i) := by
  rw [Nat.testBit_land, SignalSet.usize_not, Nat.testBit_xor,
    Nat.testBit_two_pow_sub_one]
  by_cases hi : i < 64
  · simp [hi]
  · have : recv.testBit i = false := by
      apply Nat.testBit_eq_false_of_lt
      exact lt_of_lt_of_le h (Nat.pow_le_pow_right (by norm_num) (by omega))
    simp [this]

theorem deliverable_lt_two_pow (recv mask : Nat) (h : recv < 2 ^ 64) :
    recv &&& SignalSet.usize_not mask < 2 ^ 64 := by
  apply lt_two_pow_of_bits
  intro i hi
  rw [testBit_deliverable recv mask i h, Bool.and_eq_true] at hi
  by_contra hw
  push_neg at hw
  have hlt : recv < 2 ^ i :=
    lt_of_lt_of_le h (Nat.pow_le_pow_right (by norm_num) hw)
  rw [Nat.testBit_eq_false_of_lt hlt] at hi
  exact absurd hi.1 (by simp)

theorem find_first_one_some_spec (recv mask b : Nat) (hlt : recv < 2 ^ 64)
    (h : SignalSet.find_first_one recv mask = some b) :
    recv.testBit b = true ∧ mask.testBit b = false ∧
      ∀ j, j < b → ¬(recv.testBit j = true ∧ mask.testBit j = false) := by
  unfold SignalSet.find_first_one at h
  by_cases hz : recv &&& SignalSet.usize_not mask = 0
  · rw [if_pos hz] at h; exact absurd h (by simp)
  · rw [if_neg hz] at h
    have hb : ctz (recv &&& SignalSet.usize_not mask) = b := by injection h
    obtain ⟨h1, h2⟩ :=
      ctzFuel_spec 64 (recv &&& SignalSet.usize_not mask) hz
        (deliverable_lt_two_pow recv mask hlt)
    rw [show ctz (recv &&& SignalSet.usize_not mask)
        = ctzFuel 64 (recv &&& SignalSet.usize_not mask) from rfl] at hb
    rw [hb] at h1 h2
    rw [testBit_deliverable recv mask b hlt, Bool.and_eq_true] at h1
    refine ⟨h1.1, by simpa using h1.2, ?_⟩
    intro j hj hcontra
    have := h2 j hj
    rw [testBit_deliverable recv mask j hlt, hcontra.1, hcontra.2] at this
    simp at this

theorem take_deliverable_eq (s : SigState) (b : Nat)
    (hf : SignalSet.find_first_one s.received s.mask = some b)
    (hb : 1 ≤ b ∧ b ≤ 31) :
    s.take_deliverable
      = (some b, { s with received := SignalSet.remove_bit s.received b }) := by
  unfold SigState.take_deliverable
  rw [hf]
  have hv : valid_index b = some b := by
    unfold valid_index
    rw [if_neg (by omega)]
  simp only [hv]

theorem take_deliverable_some_inv (s : SigState) (b : Nat) (s1 : SigState)
    (h : s.take_deliverable = (some b, s1)) :
    SignalSet.find_first_one s.received s.mask = some b ∧ 1 ≤ b ∧ b ≤ 31 := by
  unfold SigState.take_deliverable at h
  cases hf : SignalSet.find_first_one s.received s.mask with
  | none => rw [hf] at h; exact absurd h (by simp)
  | some bit =>
    rw [hf] at h
    have h' : (match valid_index bit with
        | some _ => ((some bit : Option Nat),
            { s with received := SignalSet.remove_bit s.received bit })
        | none => ((none : Option Nat),
            { s with received := SignalSet.remove_bit s.received bit }))
        = (some b, s1) := h
    by_cases hv : bit = 0 ∨ bit > 31
    · rw [show valid_index bit = none from by unfold valid_index; rw [if_pos hv]]
        at h'
      exact absurd h' (by simp)
    · rw [show valid_index bit = some bit from by
          unfold valid_index; rw [if_neg hv]] at h'
      have hbb : bit = b := by
        have := congrArg Prod.fst h'
        simpa using this
      subst hbb
      exact ⟨rfl, by omega, by omega⟩

/-! ## Theorems -/

theorem MutexSt.lockAll_locked (ts : List Nat) :
    ∀ s : MutexSt, s.locked = true →
      MutexSt.lockAll s ts = { locked := true, waiting := s.waiting ++ ts } := by
  induction ts with
  | nil => intro s h; cases s; simp_all [MutexSt.lockAll]
  | cons t rest ih =>
    intro s h
    have hstep : (MutexSt.lock s t).1 = { s with waiting := s.waiting ++ [t] } := by
      simp [MutexSt.lock, h]
    have := ih { s with waiting := s.waiting ++ [t] } (by simpa using h)
    simp only [MutexSt.lockAll, List.foldl_cons] at *
    rw [hstep, this]
    simp

theorem MutexSt.unlockRun_locked (q : List Nat) :
    MutexSt.unlockRun { locked := true, waiting := q } (q.length + 1)
      = some ({ locked := false, waiting := [] }, q.map some ++ [none]) := by
  induction q with
  | nil => simp [MutexSt.unlockRun, MutexSt.unlock]
  | cons t rest ih =>
    show (match MutexSt.unlock { locked := true, waiting := t :: rest } with
      | none => none
      | some (s1, r) =>
        match MutexSt.unlockRun s1 (rest.length + 1) with
        | none => none
        | some (s2, rs) => some (s2, r :: rs))
      = some ({ locked := false, waiting := [] },
              (t :: rest).map some ++ [none])
    rw [show MutexSt.unlock { locked := true, waiting := t :: rest }
        = some ({ locked := true, waiting := rest }, some t) from rfl]
    show (match MutexSt.unlockRun { locked := true, waiting := rest }
            (rest.length + 1) with
      | none => none
      | some (s2, rs) => some (s2, some t :: rs))
      = some ({ locked := false, waiting := [] },
              (t :: rest).map some ++ [none])
    rw [ih]
    simp

/-- C3: a blocking mutex's `unlock` with a non-empty waiter queue pops the
front waiter and returns it while leaving the locked flag set; with an empty
queue it clears the locked flag and returns `none`; consequently, starting
from a locked mutex with no waiters, after the lock calls of `ts` enqueue
`ts` in order, a run of `|ts| + 1` unlocks hands the lock to exactly the
threads of `ts` in FIFO order and the final unlock clears the lock. -/
theorem mutex_unlock_fifo (s : MutexSt) (ts : List Nat)
    (hl : s.locked = true) (hw : s.waiting = []) :
    (∀ (s' : MutexSt) (t : Nat) (rest : List Nat),
        s'.locked = true → s'.waiting = t :: rest →
        s'.unlock = some ({ locked := true, waiting := rest }, some t)) ∧
    (∀ s' : MutexSt, s'.locked = true → s'.waiting = [] →
        s'.unlock = some ({ locked := false, waiting := [] }, none)) ∧
    MutexSt.unlockRun (s.lockAll ts) (ts.length + 1)
      = some ({ locked := false, waiting := [] }, ts.map some ++ [none]) := by
  refine ⟨?_, ?_, ?_⟩
  · intro s' t rest h1 h2
    cases s'
    simp_all [MutexSt.unlock]
  · intro s' h1 h2
    cases s'
    simp_all [MutexSt.unlock]
  · rw [MutexSt.lockAll_locked ts s hl, hw]
    simpa using MutexSt.unlockRun_locked ts

/-- Witness for C3 at a concrete input: three contending threads are handed
the lock in the order they called `lock`. -/
theorem mutex_unlock_fifo_witness :
    (MutexSt.mk true []).locked = true ∧
    MutexSt.unlockRun ((MutexSt.mk true []).lockAll [3, 1, 2]) 4
      = some ({ locked := false, waiting := [] },
              [some 3, some 1, some 2, none]) :=
  ⟨rfl, (mutex_unlock_fifo (MutexSt.mk true []) [3, 1, 2] rfl rfl).2.2⟩

/-- C2: a signal-delivery attempt first consumes a pending-and-unmasked
SIGKILL (bit 9) and reports `ProcessKilled (-9)` — before consulting the
frozen or handler-running state; otherwise, when no handling state is
active, the signal consumed (removed from `received`) is exactly the
lowest-numbered signal that is pending and not masked, and when no such
signal exists the result is `NoSignal` with the state unchanged. -/
theorem handle_signals_priority (s : SigState) (ctx : Ctx) :
    (SignalSet.contain_bit s.received 9 = true →
      SignalSet.contain_bit s.mask 9 = false →
      s.handle_signals ctx
        = (.processKilled (-9),
           { s with received := SignalSet.remove_bit s.received 9 }, ctx)) ∧
    (¬(SignalSet.contain_bit s.received 9 = true ∧
        SignalSet.contain_bit s.mask 9 = false) →
      s.handling = none →
      s.received < 2 ^ 64 →
      (s.received &&& SignalSet.usize_not s.mask = 0 →
        s.handle_signals ctx = (.noSignal, s, ctx)) ∧
      (∀ b, SignalSet.find_first_one s.received s.mask = some b →
        (∀ i, s.received.testBit i = true → 1 ≤ i ∧ i ≤ 31) →
        (s.handle_signals ctx).2.1.received = SignalSet.remove_bit s.received b ∧
        s.received.testBit b = true ∧ s.mask.testBit b = false ∧
        ∀ j, j < b →
          ¬(s.received.testBit j = true ∧ s.mask.testBit j = false))) := by
  constructor
  · intro h1 h2
    unfold SigState.handle_signals
    rw [if_pos (by rw [h1, h2]; rfl)]
    norm_num [kill_code]
  · intro hk hh hlt
    have hcond :
        ¬((SignalSet.contain_bit s.received 9
            && !SignalSet.contain_bit s.mask 9) = true) := by
      intro hc
      rw [Bool.and_eq_true] at hc
      exact hk ⟨hc.1, by simpa using hc.2⟩
    constructor
    · intro hz
      unfold SigState.handle_signals
      rw [if_neg hcond, hh]
      rw [show s.take_deliverable = (none, s) from by
        unfold SigState.take_deliverable
        rw [show SignalSet.find_first_one s.received s.mask = none from by
          unfold SignalSet.find_first_one; rw [if_pos hz]]]
    · intro b hfind hbits
      have hspec := find_first_one_some_spec s.received s.mask b hlt hfind
      have hb31 : 1 ≤ b ∧ b ≤ 31 := hbits b hspec.1
      have htd := take_deliverable_eq s b hfind hb31
      obtain ⟨recv, msk, hdl, acts⟩ := s
      simp only at hh hspec htd ⊢
      subst hh
      have hred : (SigState.mk recv msk none acts).handle_signals ctx
          = (if b = 9 then
              (.processKilled (kill_code 9),
               SigState.mk (SignalSet.remove_bit recv b) msk none acts, ctx)
            else if b = 19 then
              (.processSuspended,
               SigState.mk (SignalSet.remove_bit recv b) msk
                 (some .frozen) acts, ctx)
            else if ((acts b).getD ⟨0, 0⟩).handler ≠ 0 then
              (.handled,
               SigState.mk (SignalSet.remove_bit recv b) msk
                 (some (.userSignal ctx)) acts,
               (ctx.setPc ((acts b).getD ⟨0, 0⟩).handler).setA0 b)
            else if b = 17 ∨ b = 23 ∨ b = 18 then
              (.ignored,
               SigState.mk (SignalSet.remove_bit recv b) msk none acts, ctx)
            else
              (.processKilled (kill_code b),
               SigState.mk (SignalSet.remove_bit recv b) msk none acts, ctx)) := by
        unfold SigState.handle_signals
        rw [if_neg hcond, htd]
      rw [hred]
      refine ⟨?_, hspec.1, hspec.2.1, hspec.2.2⟩
      split_ifs <;> rfl

/-- A fixed concrete context used by the signal witnesses. -/
def ctx0 : Ctx := ⟨fun _ => 0, 0, false, true⟩

/-- Witness for C2: with pending = \x7b3, 5\x7d and mask = \x7b3\x7d, the attempt
consumes exactly signal 5, the lowest pending-and-unmasked one. -/
theorem handle_signals_priority_witness :
    SignalSet.find_first_one 40 8 = some 5 ∧
    ((SigState.mk 40 8 none fun _ => none).handle_signals ctx0).2.1.received
        = SignalSet.remove_bit 40 5 ∧
    Nat.testBit 40 5 = true ∧ Nat.testBit 8 5 = false ∧
    ∀ j, j < 5 → ¬(Nat.testBit 40 j = true ∧ Nat.testBit 8 j = false) := by
  have hbits : ∀ i, Nat.testBit 40 i = true → 1 ≤ i ∧ i ≤ 31 := by
    intro i hi
    have hi6 : i < 6 := by
      by_contra hbig
      push_neg at hbig
      rw [Nat.testBit_eq_false_of_lt
        (lt_of_lt_of_le (by norm_num : (40 : Nat) < 2 ^ 6)
          (Nat.pow_le_pow_right (by norm_num) hbig))] at hi
      exact absurd hi (by simp)
    interval_cases i <;> revert hi <;> decide
  have h := ((handle_signals_priority (SigState.mk 40 8 none fun _ => none)
      ctx0).2 (by decide) rfl (by norm_num)).2 5 (by decide) hbits
  exact ⟨by decide, h.1, h.2.1, h.2.2.1, h.2.2.2⟩

/-- C7: if a user signal handler is in progress, `sigreturn` restores the
context saved at handler entry, clears the handler-in-progress state, and
returns 0; with no user handler in progress (no handling state, or frozen)
it returns −1 and leaves both the signal state and the context unchanged. -/
theorem sigreturn_spec (s : SigState) (ctx saved : Ctx) :
    (s.handling = some (.userSignal saved) →
      sigreturnSys s ctx = (0, { s with handling := none }, saved)) ∧
    ((∀ c, s.handling ≠ some (.userSignal c)) →
      sigreturnSys s ctx = (-1, s, ctx)) := by
  constructor
  · intro h
    unfold sigreturnSys SigState.sig_return
    rw [h]
    rfl
  · intro h
    unfold sigreturnSys SigState.sig_return
    cases hh : s.handling with
    | none => rfl
    | some hd =>
      cases hd with
      | frozen =>
        have hs : ({ s with handling := some Handling.frozen } : SigState) = s := by
          cases s
          simp only at hh
          rw [hh]
        rw [hs]
        rfl
      | userSignal c => exact absurd hh (h c)

/-- A second concrete context, distinct from `ctx0`. -/
def ctx1 : Ctx := ⟨fun _ => 1, 5, false, true⟩

/-- Witness for C7: a state running a user handler with saved context `ctx0`
is restored to `ctx0` exactly, with the handling state cleared and return
value 0. -/
theorem sigreturn_spec_witness :
    (SigState.mk 0 0 (some (.userSignal ctx0)) fun _ => none).handling
        = some (.userSignal ctx0) ∧
    sigreturnSys (SigState.mk 0 0 (some (.userSignal ctx0)) fun _ => none) ctx1
      = (0, SigState.mk 0 0 none fun _ => none, ctx0) :=
  ⟨rfl,
   (sigreturn_spec (SigState.mk 0 0 (some (.userSignal ctx0)) fun _ => none)
      ctx1 ctx0).1 rfl⟩

/-- C8: a syscall with an unsupported number terminates the task with exit
code −2; an unhandled trap (neither user environment call nor timer
interrupt) terminates the task with exit code −3; a kill verdict from the
signal subsystem terminates the task with the verdict's code, and every
`ProcessKilled` verdict of `handle_signals` carries code −sig for the
signal sig that caused it. In all cases the decision is `exitWith` — the
dispatcher terminates only the offending task, never the kernel. -/
theorem fatal_exit_codes :
    (∀ (isExit : Bool) (sig : SigResult),
        dispatchNext .userEnvCall isExit .unsupported sig = .exitWith (-2)) ∧
    (∀ (isExit : Bool) (res : SyscallRes) (sig : SigResult),
        dispatchNext .otherTrap isExit res sig = .exitWith (-3)) ∧
    (∀ ret c : Int,
        dispatchNext .userEnvCall false (.done ret) (.processKilled c)
          = .exitWith c) ∧
    (∀ (isExit : Bool) (res : SyscallRes) (c : Int),
        dispatchNext .supervisorTimer isExit res (.processKilled c)
          = .exitWith c) ∧
    (∀ (s : SigState) (ctx : Ctx) (c : Int) (s2 : SigState) (c2 : Ctx),
        s.handle_signals ctx = (.processKilled c, s2, c2) →
        c = kill_code 9 ∨
          ∃ b, 1 ≤ b ∧ b ≤ 31 ∧
            SignalSet.find_first_one s.received s.mask = some b ∧
            c = kill_code b) := by
  refine ⟨fun _ _ => rfl, fun _ _ _ => rfl, fun _ _ => rfl, fun _ _ _ => rfl, ?_⟩
  intro s ctx c s2 c2 h
  unfold SigState.handle_signals at h
  by_cases h9 : (SignalSet.contain_bit s.received 9
      && !SignalSet.contain_bit s.mask 9) = true
  · rw [if_pos h9] at h
    left
    have := congrArg Prod.fst h
    simpa using this.symm
  · rw [if_neg h9] at h
    cases hh : s.handling with
    | some hd =>
      rw [hh] at h
      cases hd with
      | frozen =>
        unfold SigState.handle_frozen at h
        by_cases hc : (SignalSet.contain_bit s.received 18
            && !SignalSet.contain_bit s.mask 18) = true
        · rw [if_pos hc] at h
          exact absurd (congrArg Prod.fst h) (by simp)
        · rw [if_neg hc] at h
          exact absurd (congrArg Prod.fst h) (by simp)
      | userSignal cs =>
        exact absurd (congrArg Prod.fst h) (by simp)
    | none =>
      rw [hh] at h
      rcases htd : s.take_deliverable with ⟨ob, s1⟩
      rw [htd] at h
      cases ob with
      | none => exact absurd (congrArg Prod.fst h) (by simp)
      | some b =>
        obtain ⟨hfind, hb1, hb31⟩ := take_deliverable_some_inv s b _ htd
        have h' : (if b = 9 then
              (SigResult.processKilled (kill_code 9), s1, ctx)
            else if b = 19 then
              (SigResult.processSuspended,
               { s1 with handling := some Handling.frozen }, ctx)
            else if ((s1.actions b).getD ⟨0, 0⟩).handler ≠ 0 then
              (SigResult.handled,
               { s1 with handling := some (.userSignal ctx) },
               (ctx.setPc ((s1.actions b).getD ⟨0, 0⟩).handler).setA0 b)
            else if b = 17 ∨ b = 23 ∨ b = 18 then
              (SigResult.ignored, s1, ctx)
            else (SigResult.processKilled (kill_code b), s1, ctx))
            = (SigResult.processKilled c, s2, c2) := h
        by_cases hb9 : b = 9
        · rw [if_pos hb9] at h'
          left
          have := congrArg Prod.fst h'
          simpa using this.symm
        · rw [if_neg hb9] at h'
          by_cases hb19 : b = 19
          · rw [if_pos hb19] at h'
            exact absurd (congrArg Prod.fst h') (by simp)
          · rw [if_neg hb19] at h'
            by_cases hhandler : ((s1.actions b).getD ⟨0, 0⟩).handler ≠ 0
            · rw [if_pos hhandler] at h'
              exact absurd (congrArg Prod.fst h') (by simp)
            · rw [if_neg hhandler] at h'
              by_cases hign : b = 17 ∨ b = 23 ∨ b = 18
              · rw [if_pos hign] at h'
                exact absurd (congrArg Prod.fst h') (by simp)
              · rw [if_neg hign] at h'
                right
                refine ⟨b, hb1, hb31, hfind, ?_⟩
                have := congrArg Prod.fst h'
                simpa using this.symm

/-- Witness for C8: an unsupported syscall exits with −2; a fault exits with
−3; a pending default-killed SIGTERM (15) yields a `ProcessKilled` verdict
whose code is −15 = `kill_code 15`. -/
theorem fatal_exit_codes_witness :
    dispatchNext .userEnvCall false .unsupported .noSignal = .exitWith (-2) ∧
    dispatchNext .otherTrap false (.done 0) .noSignal = .exitWith (-3) ∧
    dispatchNext .supervisorTimer false (.done 0) (.processKilled (-15))
      = .exitWith (-15) :=
  ⟨fatal_exit_codes.1 false .noSignal,
   fatal_exit_codes.2.1 false (.done 0) .noSignal,
   fatal_exit_codes.2.2.2.1 false (.done 0) (-15)⟩

/-- C10: pid allocation for a fork child never yields pid 0: for every
counter value, `alloc_pid_nonzero` terminates within two draws of the
monotonically increasing counter and the pid it returns is nonzero
(`Process::fork` sets the child's pid with exactly this allocator, so a
child pid can never collide with the 0 that fork returns to the child). -/
theorem alloc_pid_nonzero_ne_zero :
    ∀ c : Nat, ∃ pid c' : Nat, allocPidLoop 2 c = some (pid, c') ∧ pid ≠ 0 := by
  intro c
  by_cases h : c % 2 ^ 64 = 0
  · have h1 : (c + 1) % 2 ^ 64 = 1 := by omega
    refine ⟨1, 2 % 2 ^ 64, ?_, one_ne_zero⟩
    simp only [allocPidLoop, procIdNew, h, h1, ne_eq]
    norm_num
  · refine ⟨c % 2 ^ 64, (c + 1) % 2 ^ 64, ?_, h⟩
    simp only [allocPidLoop, procIdNew, ne_eq]
    rw [if_pos h]

/-! ## waitpid lemmas -/

theorem removeFirstDead_none (l : List (Nat × Int)) (pid : Nat)
    (h : ∀ d ∈ l, d.1 ≠ pid) : removeFirstDead l pid = none := by
  induction l with
  | nil => rfl
  | cons d rest ih =>
    simp only [removeFirstDead]
    rw [if_neg (h d (by simp))]
    rw [ih (fun x hx => h x (by simp [hx]))]

theorem removeFirstDead_some_fst (l : List (Nat × Int)) (pid : Nat) :
    ∀ (d : Nat × Int) (rest : List (Nat × Int)),
      removeFirstDead l pid = some (d, rest) → d.1 = pid := by
  induction l with
  | nil => intro d rest h; simp [removeFirstDead] at h
  | cons e l ih =>
    intro d rest h
    simp only [removeFirstDead] at h
    by_cases he : e.1 = pid
    · rw [if_pos he] at h
      have : e = d := by
        have := congrArg (fun x => Option.map Prod.fst x) h
        simpa using this
      rw [← this]
      exact he
    · rw [if_neg he] at h
      cases hr : removeFirstDead l pid with
      | none => rw [hr] at h; exact absurd h (by simp)
      | some p =>
        rw [hr] at h
        obtain ⟨x, r2⟩ := p
        have hx : x = d := by
          have := congrArg (fun y => Option.map Prod.fst y) h
          simpa using this
        rw [← hx]
        exact ih x r2 hr

/-- C4 counterexample: with one live child (pid 5) and no dead children,
the threaded kernel's `waitpid(5, ...)` returns −2 — not the reserved
blocked-sentinel `isize::MIN` — and the dispatcher's decision for a −2
return is to re-enqueue (suspend) the caller, not to block it. -/
theorem waitpid_live_child_counterexample :
    (waitpidSys (PTRel.mk [5] []) 5 true).1 = -2 ∧
    (waitpidSys (PTRel.mk [5] []) 5 true).1 ≠ BLOCKED_RETURN ∧
    syscallNext false (.done (waitpidSys (PTRel.mk [5] []) 5 true).1) .noSignal
      = .suspendCur ∧
    syscallNext false (.done (waitpidSys (PTRel.mk [5] []) 5 true).1) .noSignal
      ≠ .blockCur := by
  decide

/-- C4 (amended): `waitpid` whose designated child exists but is still live
returns −2 (the retry sentinel, distinct from the blocked sentinel) and the
caller is re-enqueued (suspended); with a dead matching child it returns
the reaped pid and writes the exit code through `code_ptr` when non-null;
with no matching child it returns −1. -/
theorem waitpid_semantics (r : PTRel) (pid : Nat) (hp : pid < 2 ^ 63) :
    (pid ∈ r.children → (∀ d ∈ r.deadChildren, d.1 ≠ pid) →
      waitpidSys r (pid : Int) true = (-2, r, none)) ∧
    (r.children ≠ [] → r.deadChildren = [] →
      waitpidSys r (-1) true = (-2, r, none)) ∧
    (syscallNext false (.done (-2)) .noSignal = .suspendCur ∧
      (-2 : Int) ≠ BLOCKED_RETURN) ∧
    (∀ d rest, removeFirstDead r.deadChildren pid = some (d, rest) →
      waitpidSys r (pid : Int) false
        = ((d.1 : Int), { r with deadChildren := rest }, some d.2)) ∧
    (pid ∉ r.children → removeFirstDead r.deadChildren pid = none →
      waitpidSys r (pid : Int) true = (-1, r, none)) := by
  have hP : (2 : Nat) ^ 63 = 9223372036854775808 := by norm_num
  have hQ : (2 : Nat) ^ 64 = 18446744073709551616 := by norm_num
  have hlt : ¬((pid : Int) < -1) := by omega
  have hne : ¬((pid : Int) = -1) := by omega
  have htn : (pid : Int).toNat = pid := Int.toNat_natCast pid
  have hnm : ¬(pid = USIZE_MAX) := by unfold USIZE_MAX; omega
  refine ⟨?_, ?_, ⟨by decide, by decide⟩, ?_, ?_⟩
  · intro hmem hdead
    have hwc : r.wait_child pid = (some (USIZE_MAX - 1, -1), r) := by
      unfold PTRel.wait_child
      rw [removeFirstDead_none r.deadChildren pid hdead, if_pos hmem]
    unfold waitpidSys
    rw [if_neg hlt]
    simp only [if_neg hne, htn, if_neg hnm, hwc]
    simp
  · intro hc hd
    have hwa : r.wait_any_child = (some (USIZE_MAX - 1, -1), r) := by
      unfold PTRel.wait_any_child
      rw [if_neg (by simp [hc]), hd]
    unfold waitpidSys
    rw [if_neg (by omega : ¬((-1 : Int) < -1))]
    simp [hwa]
  · intro d rest hrm
    have hd1 : d.1 = pid := removeFirstDead_some_fst r.deadChildren pid d rest hrm
    have hwc : r.wait_child pid = (some d, { r with deadChildren := rest }) := by
      unfold PTRel.wait_child
      rw [hrm]
    have hsent : ¬(d.1 = USIZE_MAX - 1 ∧ d.2 = -1) := by
      rintro ⟨h1, -⟩
      rw [hd1] at h1
      unfold USIZE_MAX at h1
      omega
    unfold waitpidSys
    rw [if_neg hlt]
    simp only [if_neg hne, htn, if_neg hnm, hwc]
    rw [if_neg hsent]
    simp
  · intro hmem hrm
    have hwc : r.wait_child pid = (none, r) := by
      unfold PTRel.wait_child
      rw [hrm, if_neg hmem]
    unfold waitpidSys
    rw [if_neg hlt]
    simp only [if_neg hne, htn, if_neg hnm, hwc]

/-- Witness for the amended C4 at concrete inputs: a live child yields −2
and suspension; a dead child (7, 42) is reaped with its code written; an
unknown pid yields −1. -/
theorem waitpid_semantics_witness :
    (5 : Nat) < 2 ^ 63 ∧
    waitpidSys (PTRel.mk [5] []) 5 true = (-2, PTRel.mk [5] [], none) ∧
    waitpidSys (PTRel.mk [] [(7, 42)]) 7 false
      = (7, PTRel.mk [] [], some 42) ∧
    waitpidSys (PTRel.mk [5] []) 9 true = (-1, PTRel.mk [5] [], none) := by
  have h5 := waitpid_semantics (PTRel.mk [5] []) 5 (by norm_num)
  have h7 := waitpid_semantics (PTRel.mk [] [(7, 42)]) 7 (by norm_num)
  have h9 := waitpid_semantics (PTRel.mk [5] []) 9 (by norm_num)
  refine ⟨by norm_num, h5.1 (by simp) (by simp), ?_, ?_⟩
  · exact h7.2.2.2.1 (7, 42) [] (by decide)
  · exact h9.2.2.2.2 (by decide) (by decide)

/-- C5 (code bug): the trampoline assembly of ch8 uses exactly the 56-byte
slot layout the claim states, but the Rust `PortalCache` record the kernel
writes through is a 32-byte `{satp@0, sepc@8, a0@16, sstatus@24}` record,
and `cache_offset` uses the 32-byte stride: slot 0 coincides (byte 264) but
every field offset other than sstatus disagrees and slot 1 starts at 296
instead of 8 + CODE_SIZE + 56 = 320. -/
theorem portal_cache_layout_mismatch :
    (portalAsmFieldOffset .a0 = specSlotOffset .a0 ∧
     portalAsmFieldOffset .a1 = specSlotOffset .a1 ∧
     portalAsmFieldOffset .satp = specSlotOffset .satp ∧
     portalAsmFieldOffset .sstatus = specSlotOffset .sstatus ∧
     portalAsmFieldOffset .sepc = specSlotOffset .sepc ∧
     portalAsmFieldOffset .stvec = specSlotOffset .stvec ∧
     portalAsmFieldOffset .sscratch = specSlotOffset .sscratch ∧
     portalAsmSlotSize = 56) ∧
    (portalCacheFieldOffset .satp = some 0 ∧ specSlotOffset .satp = 16 ∧
     portalCacheFieldOffset .a0 = some 16 ∧ specSlotOffset .a0 = 0 ∧
     portalCacheFieldOffset .sepc = some 8 ∧ specSlotOffset .sepc = 32 ∧
     portalCacheFieldOffset .a1 = none ∧
     portalCacheFieldOffset .stvec = none ∧
     portalCacheFieldOffset .sscratch = none) ∧
    (portalCacheSize = 32 ∧ portalCacheSize ≠ portalAsmSlotSize) ∧
    (cache_offset 0 = specCacheOffset 0 ∧
     cache_offset 1 = 296 ∧ specCacheOffset 1 = 320 ∧
     cache_offset 1 ≠ specCacheOffset 1) := by
  decide

/-- C9: `exec` replaces the address space, clears the signal state, the
semaphore/mutex/condvar vectors, the waittid waiter lists, the condvar-wait
bookkeeping and the thread-stack slots (re-inserting only slot 0 for the
calling thread), but leaves the file-descriptor table untouched: every fd
open before exec is still open with the same handle afterwards. -/
theorem exec_preserves_fd_table (p : ProcessSt) (tid newSpace : Nat) :
    (p.exec tid newSpace).fd_table = p.fd_table ∧
    (p.exec tid newSpace).pid = p.pid ∧
    (p.exec tid newSpace).spaceId = newSpace ∧
    (p.exec tid newSpace).thread_stacks = [(tid, 0)] ∧
    (p.exec tid newSpace).waittid_waiters = [] ∧
    (p.exec tid newSpace).condvar_wait_mutex = [] ∧
    (p.exec tid newSpace).semaphores = [] ∧
    (p.exec tid newSpace).mutexes = [] ∧
    (p.exec tid newSpace).condvars = [] ∧
    (p.exec tid newSpace).signal = ⟨0, 0, none, fun _ => none⟩ ∧
    ∀ (fd h : Nat), p.fd_table[fd]? = some (some h) →
      (p.exec tid newSpace).fd_table[fd]? = some (some h) := by
  refine ⟨rfl, rfl, rfl, rfl, rfl, rfl, rfl, rfl, rfl, rfl, ?_⟩
  intro fd h hfd
  exact hfd

/-- Witness for C9: a process with four open fds (including fd 3) keeps
all of them, with the same handles, across exec. -/
theorem exec_preserves_fd_table_witness :
    (ProcessSt.mk 1 0 [some 10, some 11, some 12, some 13]
        ⟨0, 0, none, fun _ => none⟩ [(0, 0)] [] [] [] [] []).fd_table[3]?
      = some (some 13) ∧
    ((ProcessSt.mk 1 0 [some 10, some 11, some 12, some 13]
        ⟨0, 0, none, fun _ => none⟩ [(0, 0)] [] [] [] [] []).exec 4
        7).fd_table[3]? = some (some 13) :=
  ⟨rfl,
   (exec_preserves_fd_table
      (ProcessSt.mk 1 0 [some 10, some 11, some 12, some 13]
        ⟨0, 0, none, fun _ => none⟩ [(0, 0)] [] [] [] [] []) 4 7).2.2.2.2.2.2.2.2.2.2
      3 13 rfl⟩

/-! ## ELF loader page-flag union (`ch8/src/main.rs`,
`load_user_space_from_elf`)

Loadable segments are `(vaddr, offset, filesz, memsz, R, W, X)`. The loader
makes two passes: a union pass accumulating the bitwise OR of segment flags
per virtual page, and a placement pass that maps each page the first time a
segment covers it (choosing flags from the union table) and only copies
file bytes into pages mapped earlier. The placement pass is modelled as a
trace of `mapPage`/`copyInto` actions.
-/

/-- Sv39 leaf-PTE flag quintuple `{V, R, W, X, U}`. -/
structure VmF where
  v : Bool
  r : Bool
  w : Bool
  x : Bool
  u : Bool
deriving DecidableEq

def VRWXU : VmF := ⟨true, true, true, true, true⟩
def VRXU : VmF := ⟨true, true, false, true, true⟩
def VRWU : VmF := ⟨true, true, true, false, true⟩
def VRU : VmF := ⟨true, true, false, false, true⟩

/-- A loadable program header: virtual address, file offset, file size,
memory size, and the R/W/X flag bits. -/
structure Seg where
  vaddr : Nat
  off : Nat
  filesz : Nat
  memsz : Nat
  r : Bool
  w : Bool
  x : Bool
deriving DecidableEq

def Seg.vpnStart (s : Seg) : Nat := s.vaddr >>> 12

def Seg.vpnEnd (s : Seg) : Nat := (s.vaddr + s.memsz + 4095) >>> 12

/-- Whether the segment covers `vpn` (segments with `memsz = 0` are
skipped by both passes). -/
def Seg.covers (s : Seg) (vpn : Nat) : Bool :=
  decide (s.memsz ≠ 0) && decide (s.vpnStart ≤ vpn) && decide (vpn < s.vpnEnd)

/-- The union pass: accumulate `(R, W, X)` as the bitwise OR of the flags of
every loadable segment covering `vpn` (the `page_flags` BTreeMap). -/
def unionFlags (segs : List Seg) (vpn : Nat) : Bool × Bool × Bool :=
  segs.foldl
    (fun acc s =>
      if s.covers vpn then (acc.1 || s.r, acc.2.1 || s.w, acc.2.2 || s.x)
      else acc)
    (false, false, false)

def coveredBy (segs : List Seg) (vpn : Nat) : Bool :=
  segs.any (fun s => s.covers vpn)

/-- `page_flags.get(&vpn).copied().unwrap_or((true, false, false))`. -/
def pageFlagsLookup (segs : List Seg) (vpn : Nat) : Bool × Bool × Bool :=
  if coveredBy segs vpn then unionFlags segs vpn else (true, false, false)

/-- The loader's `match (has_r, has_w, has_x)`: W and X come from the union,
R/U/V are always set. -/
def vmFlagsOf : Bool × Bool × Bool → VmF
  | (_, true, true) => VRWXU
  | (_, false, true) => VRXU
  | (_, true, false) => VRWU
  | (_, false, false) => VRU

/-- The claim's reading (modelled from the spec's words): page permissions
are the bitwise OR of the covering segments' R/W/X flags, with U added. -/
def claimFlags (segs : List Seg) (vpn : Nat) : VmF :=
  ⟨true, (unionFlags segs vpn).1, (unionFlags segs vpn).2.1,
   (unionFlags segs vpn).2.2, true⟩

/-- One step of the placement pass, as a trace action. -/
inductive LoadAct where
  | mapPage : Nat → VmF → LoadAct
  | copyInto : Nat → LoadAct
deriving DecidableEq

def Seg.pageOffset (s : Seg) (vpn : Nat) : Nat := s.vaddr - (vpn <<< 12)

def Seg.dataStart (s : Seg) (vpn : Nat) : Nat := (vpn <<< 12) - s.vaddr

def Seg.copyLen (s : Seg) (vpn : Nat) : Nat :=
  min (s.filesz - s.dataStart vpn) (4096 - s.pageOffset vpn)

/-- The placement pass's body for one `vpn` of segment `s`: an
already-mapped page only receives a byte copy (when the segment has file
bytes for it); an unmapped page is mapped with the union-table flags. -/
def placeVpn (segs : List Seg) (s : Seg) (st : List Nat × List LoadAct)
    (vpn : Nat) : List Nat × List LoadAct :=
  if vpn ∈ st.1 then
    if s.dataStart vpn < s.filesz ∧ 0 < s.copyLen vpn then
      (st.1, st.2 ++ [.copyInto vpn])
    else st
  else
    (vpn :: st.1,
     st.2 ++ [.mapPage vpn (vmFlagsOf (pageFlagsLookup segs vpn))])

def Seg.vpns (s : Seg) : List Nat :=
  (List.range (s.vpnEnd - s.vpnStart)).map (fun i => s.vpnStart + i)

def placeSeg (segs : List Seg) (st : List Nat × List LoadAct) (s : Seg) :
    List Nat × List LoadAct :=
  if s.memsz = 0 then st else s.vpns.foldl (placeVpn segs s) st

/-- The whole placement pass over the loadable segments, starting from an
empty `mapped_vpns` set and an empty trace. -/
def placement (segs : List Seg) : List Nat × List LoadAct :=
  segs.foldl (placeSeg segs) ([], [])

/-- The pages mapped by a trace. -/
def mappedOf (acts : List LoadAct) : List Nat :=
  acts.filterMap (fun a =>
    match a with
    | .mapPage v _ => some v
    | _ => none)

/-- Two W-only segments covering page 1 (no covering segment has R). -/
def elfCexSegs : List Seg :=
  [⟨4096, 0, 0, 256, false, true, false⟩,
   ⟨4352, 0, 0, 128, false, true, false⟩]

/-- The spec's overlapping-segment scenario: A = (off 0, vaddr 0x10000,
filesz 0x1100, memsz 0x1100, R|X), B = (off 0x1000, vaddr 0x11000,
filesz 0x80, memsz 0x80, R|W). -/
def elfOverlapSegs : List Seg :=
  [⟨0x10000, 0, 0x1100, 0x1100, true, false, true⟩,
   ⟨0x11000, 0x1000, 0x80, 0x80, true, true, false⟩]

/-! ## ELF placement invariants -/

theorem foldl_preserve {α β : Type} (f : β → α → β) (I : β → Prop)
    (h : ∀ b a, I b → I (f b a)) :
    ∀ (l : List α) (b : β), I b → I (l.foldl f b) := by
  intro l
  induction l with
  | nil => intro b hb; exact hb
  | cons a l ih => intro b hb; exact ih _ (h b a hb)

/-- The placement invariant: every trace `mapPage` carries the union-table
flags, no page is mapped twice, and every mapped page is in the mapped
set. -/
def PlaceInv (segs : List Seg) (st : List Nat × List LoadAct) : Prop :=
  (∀ vpn fl, LoadAct.mapPage vpn fl ∈ st.2 →
    fl = vmFlagsOf (pageFlagsLookup segs vpn)) ∧
  (mappedOf st.2).Nodup ∧
  (∀ v, v ∈ mappedOf st.2 → v ∈ st.1)

theorem mappedOf_append_copy (acts : List LoadAct) (vpn : Nat) :
    mappedOf (acts ++ [.copyInto vpn]) = mappedOf acts := by
  simp [mappedOf]

theorem mappedOf_append_map (acts : List LoadAct) (vpn : Nat) (fl : VmF) :
    mappedOf (acts ++ [.mapPage vpn fl]) = mappedOf acts ++ [vpn] := by
  simp [mappedOf]

theorem placeVpn_preserves (segs : List Seg) (s : Seg)
    (st : List Nat × List LoadAct) (vpn : Nat) (h : PlaceInv segs st) :
    PlaceInv segs (placeVpn segs s st vpn) := by
  obtain ⟨h1, h2, h3⟩ := h
  unfold placeVpn
  by_cases hm : vpn ∈ st.1
  · rw [if_pos hm]
    by_cases hc : s.dataStart vpn < s.filesz ∧ 0 < s.copyLen vpn
    · rw [if_pos hc]
      refine ⟨?_, ?_, ?_⟩
      · intro v fl hv
        rcases List.mem_append.mp hv with hv | hv
        · exact h1 v fl hv
        · simp at hv
      · rw [mappedOf_append_copy]; exact h2
      · intro v hv
        rw [mappedOf_append_copy] at hv
        exact h3 v hv
    · rw [if_neg hc]
      exact ⟨h1, h2, h3⟩
  · rw [if_neg hm]
    refine ⟨?_, ?_, ?_⟩
    · intro v fl hv
      rcases List.mem_append.mp hv with hv | hv
      · exact h1 v fl hv
      · simp at hv
        rw [hv.2, hv.1]
    · rw [mappedOf_append_map, List.nodup_append]
      refine ⟨h2, by simp, ?_⟩
      intro a ha hb
      simp at hb
      rw [hb] at ha
      exact hm (h3 vpn ha)
    · intro v hv
      rw [mappedOf_append_map] at hv
      rcases List.mem_append.mp hv with hv | hv
      · exact List.mem_cons_of_mem _ (h3 v hv)
      · simp at hv
        rw [hv]
        exact List.mem_cons_self _ _

theorem placeSeg_preserves (segs : List Seg) (st : List Nat × List LoadAct)
    (s : Seg) (h : PlaceInv segs st) : PlaceInv segs (placeSeg segs st s) := by
  unfold placeSeg
  by_cases hz : s.memsz = 0
  · rw [if_pos hz]; exact h
  · rw [if_neg hz]
    exact foldl_preserve _ _ (fun b a hb => placeVpn_preserves segs s b a hb)
      s.vpns st h

theorem placement_inv (segs : List Seg) : PlaceInv segs (placement segs) := by
  unfold placement
  exact foldl_preserve _ _ (fun b a hb => placeSeg_preserves segs b a hb) segs
    ([], []) ⟨by intro v fl hv; simp [mappedOf] at hv, by simp [mappedOf], by
      intro v hv; simp [mappedOf] at hv⟩

/-- C6 counterexample: page 1 is covered by two loadable segments, both
W-only; the claim's flags (bitwise OR of R/W/X plus U) would be `W|U`
without R, but the loader maps the page `VRWU` — R is set regardless of the
segments' R bits. -/
theorem elf_union_flags_counterexample :
    (elfCexSegs.get ⟨0, by decide⟩).covers 1 = true ∧
    (elfCexSegs.get ⟨1, by decide⟩).covers 1 = true ∧
    (placement elfCexSegs).2 = [.mapPage 1 VRWU] ∧
    (claimFlags elfCexSegs 1).r = false ∧
    VRWU.r = true ∧
    VRWU ≠ claimFlags elfCexSegs 1 := by
  decide

/-- C6 (amended): for every virtual page the loader maps, the page's W and X
permissions are the bitwise OR of the covering segments' W/X flags from the
union table, and V, R and U are always added (R regardless of the segments'
R bits); a page is mapped at most once — by the first segment covering it —
and later segments only copy their file bytes into the already-mapped page;
in particular a page covered by both an R|X segment and an R|W segment is
mapped VRWXU. -/
theorem elf_flag_union_amended (segs : List Seg) :
    (∀ vpn fl, LoadAct.mapPage vpn fl ∈ (placement segs).2 →
      fl = vmFlagsOf (pageFlagsLookup segs vpn)) ∧
    (mappedOf (placement segs).2).Nodup ∧
    (∀ t : Bool × Bool × Bool,
      (vmFlagsOf t).v = true ∧ (vmFlagsOf t).r = true ∧
      (vmFlagsOf t).u = true ∧ (vmFlagsOf t).w = t.2.1 ∧
      (vmFlagsOf t).x = t.2.2) ∧
    (placement elfOverlapSegs).2
      = [.mapPage 0x10 VRXU, .mapPage 0x11 VRWXU, .copyInto 0x11] := by
  obtain ⟨h1, h2, -⟩ := placement_inv segs
  refine ⟨h1, h2, ?_, by decide⟩
  intro t
  obtain ⟨a, b, c⟩ := t
  cases a <;> cases b <;> cases c <;> decide

/-- Witness for the amended C6: in the spec's overlapping-segment scenario
the intersecting page 0x11 is mapped exactly with the union-table flags,
which are VRWXU. -/
theorem elf_flag_union_amended_witness :
    LoadAct.mapPage 0x11 VRWXU ∈ (placement elfOverlapSegs).2 ∧
    VRWXU = vmFlagsOf (pageFlagsLookup elfOverlapSegs 0x11) :=
  ⟨by decide, (elf_flag_union_amended elfOverlapSegs).1 0x11 VRWXU (by decide)⟩

/-! ## Address spaces, cloning and fork (`kernel-vm/src/lib.rs`,
`ch8/src/main.rs` `Sv39Manager` and `Process::fork`)

Physical memory is a byte store indexed by physical page number; the ch8
`Sv39Manager` allocates fresh zeroed page runs from the kernel heap and
identity-maps physical memory (`p_to_v(ppn) = ppn << 12`). An
`AddressSpace` is its `areas` list plus the leaf-PTE view of its page
table.
-/

/-- Physical memory and the page allocator: `bytes p j` is byte `j` of
physical page `p`; `next` is the next free physical page number. -/
structure Mem where
  bytes : Nat → Nat → Nat
  next : Nat

/-- `Sv39Manager::allocate(len)`: a run of `len` fresh zeroed pages,
returned as the base page number. -/
def Mem.allocate (m : Mem) (count : Nat) : Nat × Mem :=
  (m.next,
   { bytes := fun p j =>
       if m.next ≤ p ∧ p < m.next + count then 0 else m.bytes p j,
     next := m.next + count })

/-- `core::ptr::copy_nonoverlapping` of `count` whole pages from physical
page `src` to physical page `dst`. -/
def Mem.copyPages (m : Mem) (src dst count : Nat) : Mem :=
  { m with
    bytes := fun p j =>
      if dst ≤ p ∧ p < dst + count then m.bytes (src + (p - dst)) j
      else m.bytes p j }

/-- The leaf-PTE view of a page table: virtual page ↦ (physical page,
flags). -/
def PT : Type := Nat → Option (Nat × VmF)

def setPte (pt : PT) (vpn : Nat) (e : Nat × VmF) : PT :=
  fun v => if v = vpn then some e else pt v

/-- The `for i in 0..count` loop of `AddressSpace::mapExtern`: install a
leaf PTE mapping `start + i ↦ pbase + i` with `flags` for every page of
the range. -/
def mapExternLoop (pt : PT) (start pbase : Nat) (fl : VmF) : Nat → PT
  | 0 => pt
  | i + 1 =>
    setPte (mapExternLoop pt start pbase fl i) (start + i) (pbase + i, fl)

/-- `AddressSpace`: the recorded ranges (`(start vpn, page count)`) and the
page table. -/
structure Space where
  areas : List (Nat × Nat)
  pt : PT

/-- `AddressSpace::new()`. -/
def Space.new : Space := ⟨[], fun _ => none⟩

/-- `AddressSpace::mapExtern(range, pbase, flags)`: map every page of the
range and push the range onto `areas`. -/
def Space.mapExtern (s : Space) (start count pbase : Nat) (fl : VmF) : Space :=
  { areas := s.areas ++ [(start, count)],
    pt := mapExternLoop s.pt start pbase fl count }

/-- `VmFlags::contains` — every required bit is present. -/
def VmF.containsF (sup req : VmF) : Bool :=
  (!req.v || sup.v) && (!req.r || sup.r) && (!req.w || sup.w) &&
  (!req.x || sup.x) && (!req.u || sup.u)

/-- `AddressSpace::translate(vaddr, flags)`: walk to the leaf of
`vaddr >> 12`; on a valid leaf whose flags contain the required set,
return the kernel-virtual byte address `(ppn << 12) + page offset`. -/
def Space.translate (s : Space) (vaddr : Nat) (req : VmF) : Option Nat :=
  match s.pt (vaddr >>> 12) with
  | some (ppn, fl) =>
    if VmF.containsF fl req then some ((ppn <<< 12) + vaddr % 4096)
    else none
  | none => none

/-- `AddressSpace::copy_leaf_pte_from(src, vpn)`: copy `src`'s leaf PTE for
`vpn` (when valid) into this table, without touching `areas`. -/
def Space.copy_leaf_pte_from (dst src : Space) (vpn : Nat) : Space :=
  match src.pt vpn with
  | some e => { dst with pt := setPte dst.pt vpn e }
  | none => dst

/-- One iteration of `AddressSpace::cloneself`: empty ranges and ranges
whose first page has no valid leaf are skipped; otherwise a fresh run of
pages is allocated in the destination's manager, the source bytes are
copied page-for-page, and the range is mapped with the source's flags. -/
def cloneArea (src : Space) (st : Space × Mem) (a : Nat × Nat) : Space × Mem :=
  if a.2 = 0 then st
  else
    match src.pt a.1 with
    | none => st
    | some (p0, fl) =>
      let alloc := st.2.allocate a.2
      let m2 := alloc.2.copyPages p0 alloc.1 a.2
      (st.1.mapExtern a.1 a.2 alloc.1 fl, m2)

/-- `AddressSpace::cloneself(new_addrspace)`: clone every recorded range. -/
def Space.cloneself (src dst : Space) (m : Mem) : Space × Mem :=
  src.areas.foldl (cloneArea src) (dst, m)

/-- The address-space part of `Process::fork`: a fresh space, `cloneself`
into it, then alias the Portal leaf PTE from the kernel space. -/
def forkSpace (parent kernel : Space) (m : Mem) (portalVpn : Nat) :
    Space × Mem :=
  let cm := Space.cloneself parent Space.new m
  (Space.copy_leaf_pte_from cm.1 kernel portalVpn, cm.2)

/-- `v` lies in range `a`. -/
def covers' (a : Nat × Nat) (v : Nat) : Prop := a.1 ≤ v ∧ v < a.1 + a.2

/-- Range `a` is physically contiguous with uniform flags starting at the
PPN of its first page — the invariant `map` establishes for ranges backed
by a single allocation. -/
def AreaContig (s : Space) (a : Nat × Nat) : Prop :=
  ∃ p0 fl, s.pt a.1 = some (p0, fl) ∧
    ∀ i, i < a.2 → s.pt (a.1 + i) = some (p0 + i, fl)

def AreasDisj (a b : Nat × Nat) : Prop := ∀ v, ¬(covers' a v ∧ covers' b v)

/-! ## Cloning lemmas -/

theorem mapExternLoop_lookup (pt : PT) (start pbase : Nat) (fl : VmF) :
    ∀ count v, mapExternLoop pt start pbase fl count v
      = if start ≤ v ∧ v < start + count
        then some (pbase + (v - start), fl)
        else pt v := by
  intro count
  induction count with
  | zero =>
    intro v
    simp only [mapExternLoop]
    rw [if_neg (by omega)]
  | succ i ih =>
    intro v
    simp only [mapExternLoop, setPte]
    by_cases hv : v = start + i
    · rw [if_pos hv, if_pos (by omega)]
      subst hv
      simp
    · rw [if_neg hv, ih v]
      by_cases h2 : start ≤ v ∧ v < start + i
      · rw [if_pos h2, if_pos (by omega)]
      · rw [if_neg h2, if_neg (by omega)]

theorem cloneself_go (src : Space) (l : List (Nat × Nat)) :
    ∀ (dst : Space) (m : Mem),
      (∀ a ∈ l, a.2 ≠ 0 → AreaContig src a) →
      (∀ v p fl, src.pt v = some (p, fl) → p < m.next) →
      List.Pairwise AreasDisj l →
      m.next ≤ (l.foldl (cloneArea src) (dst, m)).2.next ∧
      (∀ p j, p < m.next →
        (l.foldl (cloneArea src) (dst, m)).2.bytes p j = m.bytes p j) ∧
      (∀ v, (∀ a ∈ l, ¬ covers' a v) →
        (l.foldl (cloneArea src) (dst, m)).1.pt v = dst.pt v) ∧
      (∀ a ∈ l, ∀ v, covers' a v → ∀ p fl, src.pt v = some (p, fl) →
        ∃ c, (l.foldl (cloneArea src) (dst, m)).1.pt v = some (c, fl) ∧
          ∀ j, j < 4096 →
            (l.foldl (cloneArea src) (dst, m)).2.bytes c j = m.bytes p j) := by
  induction l with
  | nil =>
    intro dst m _ _ _
    exact ⟨le_refl _, fun p j _ => rfl, fun v _ => rfl, by simp⟩
  | cons a rest ih =>
    intro dst m hContig hLive hDisj
    rcases hst : cloneArea src (dst, m) a with ⟨dst1, m1⟩
    have hstep : m.next ≤ m1.next ∧
        (∀ p j, p < m.next → m1.bytes p j = m.bytes p j) ∧
        (∀ v, ¬ covers' a v → dst1.pt v = dst.pt v) ∧
        (∀ v, covers' a v → ∀ p fl, src.pt v = some (p, fl) →
          ∃ c, dst1.pt v = some (c, fl) ∧ c < m1.next ∧
            ∀ j, j < 4096 → m1.bytes c j = m.bytes p j) := by
      by_cases ha : a.2 = 0
      · unfold cloneArea at hst
        rw [if_pos ha] at hst
        injection hst with h1 h2
        subst h1
        subst h2
        refine ⟨le_refl _, fun p j _ => rfl, fun v _ => rfl, ?_⟩
        intro v hv
        obtain ⟨hv1, hv2⟩ := hv
        exfalso
        omega
      · cases hpt : src.pt a.1 with
        | none =>
          exact absurd (hContig a (List.mem_cons_self a rest) ha)
            (by unfold AreaContig; rw [hpt]; simp)
        | some e =>
          obtain ⟨p0, fl0⟩ := e
          unfold cloneArea at hst
          rw [if_neg ha, hpt] at hst
          have hst' : (dst.mapExtern a.1 a.2 m.next fl0,
              Mem.copyPages (m.allocate a.2).2 p0 m.next a.2) = (dst1, m1) :=
            hst
          injection hst' with hD hM
          subst hD
          subst hM
          have hnext1 : (Mem.copyPages (m.allocate a.2).2 p0 m.next a.2).next
              = m.next + a.2 := rfl
          have hB1 : ∀ p j, p < m.next →
              (Mem.copyPages (m.allocate a.2).2 p0 m.next a.2).bytes p j
                = m.bytes p j := by
            intro p j hp
            simp only [Mem.copyPages, Mem.allocate]
            rw [if_neg (by omega), if_neg (by omega)]
          have hB2 : ∀ k j, k < a.2 → p0 + k < m.next →
              (Mem.copyPages (m.allocate a.2).2 p0 m.next a.2).bytes
                  (m.next + k) j
                = m.bytes (p0 + k) j := by
            intro k j hk hp0
            simp only [Mem.copyPages, Mem.allocate]
            rw [if_pos ⟨by omega, by omega⟩,
                show m.next + k - m.next = k from by omega,
                if_neg (by omega)]
          refine ⟨by rw [hnext1]; omega, hB1, ?_, ?_⟩
          · intro v hv
            show mapExternLoop dst.pt a.1 m.next fl0 a.2 v = dst.pt v
            rw [mapExternLoop_lookup]
            rw [if_neg (by unfold covers' at hv; omega)]
          · intro v hv p fl hpf
            obtain ⟨p0', fl', hA1, hA2⟩ :=
              hContig a (List.mem_cons_self a rest) ha
            rw [hpt] at hA1
            injection hA1 with hpair
            injection hpair with hq1 hq2
            subst hq1
            subst hq2
            obtain ⟨hv1, hv2⟩ := hv
            have hsv := hA2 (v - a.1) (by omega)
            rw [show a.1 + (v - a.1) = v from by omega, hpf] at hsv
            injection hsv with hpair2
            injection hpair2 with hr1 hr2
            refine ⟨m.next + (v - a.1), ?_, by rw [hnext1]; omega, ?_⟩
            · show mapExternLoop dst.pt a.1 m.next fl0 a.2 v
                = some (m.next + (v - a.1), fl)
              rw [mapExternLoop_lookup, if_pos ⟨hv1, hv2⟩, hr2]
            · intro j hj
              rw [hB2 (v - a.1) j (by omega)
                (by rw [← hr1]; exact hLive v p fl hpf), hr1]
    have hLive1 : ∀ v p fl, src.pt v = some (p, fl) → p < m1.next :=
      fun v p fl h => lt_of_lt_of_le (hLive v p fl h) hstep.1
    obtain ⟨hDa, hDrest⟩ := List.pairwise_cons.mp hDisj
    have hrest := ih dst1 m1
      (fun b hb => hContig b (List.mem_cons_of_mem a hb)) hLive1 hDrest
    obtain ⟨hN, hB, hP, hM⟩ := hrest
    simp only [List.foldl_cons, hst]
    refine ⟨le_trans hstep.1 hN, ?_, ?_, ?_⟩
    · intro p j hp
      rw [hB p j (lt_of_lt_of_le hp hstep.1), hstep.2.1 p j hp]
    · intro v hv
      rw [hP v (fun b hb => hv b (List.mem_cons_of_mem a hb)),
          hstep.2.2.1 v (hv a (List.mem_cons_self a rest))]
    · intro b hb v hv p fl hpf
      rcases List.mem_cons.mp hb with rfl | hb
      · obtain ⟨c, hc1, hc2, hc3⟩ := hstep.2.2.2 v hv p fl hpf
        have hvrest : ∀ b' ∈ rest, ¬ covers' b' v := by
          intro b' hb' hcb
          exact hDa b' hb' v ⟨hv, hcb⟩
        refine ⟨c, ?_, ?_⟩
        · rw [hP v hvrest, hc1]
        · intro j hj
          rw [hB c j hc2, hc3 j hj]
      · obtain ⟨c, hc1, hc2⟩ := hM b hb v hv p fl hpf
        refine ⟨c, hc1, ?_⟩
        intro j hj
        rw [hc2 j hj, hstep.2.1 p j (hLive v p fl hpf)]

theorem copy_leaf_pte_from_ne (dst src : Space) (pv v : Nat) (h : v ≠ pv) :
    (Space.copy_leaf_pte_from dst src pv).pt v = dst.pt v := by
  unfold Space.copy_leaf_pte_from
  cases hk : src.pt pv with
  | none => rfl
  | some e =>
    show setPte dst.pt pv e v = dst.pt v
    unfold setPte
    rw [if_neg h]

theorem VmF.containsF_self (fl : VmF) : VmF.containsF fl fl = true := by
  obtain ⟨a, b, c, d, e⟩ := fl
  cases a <;> cases b <;> cases c <;> cases d <;> cases e <;> rfl

theorem translate_of_pt (s : Space) (v c : Nat) (fl : VmF)
    (h : s.pt v = some (c, fl)) :
    s.translate (v <<< 12) fl = some (c <<< 12) := by
  unfold Space.translate
  have hsh : (v <<< 12) >>> 12 = v := by
    rw [Nat.shiftLeft_eq, Nat.shiftRight_eq_div_pow]
    exact Nat.mul_div_cancel v (by norm_num)
  rw [hsh, h]
  show (if VmF.containsF fl fl = true
      then some ((c <<< 12) + (v <<< 12) % 4096) else none) = some (c <<< 12)
  rw [if_pos (VmF.containsF_self fl)]
  have hmod : (v <<< 12) % 4096 = 0 := by
    rw [Nat.shiftLeft_eq]
    norm_num [Nat.mul_mod_left]
  rw [hmod]
  simp

/-- C1: immediately after fork, for every virtual page mapped in the
parent's address space, the child's page table maps that page with the same
flags, `translate` on the child succeeds, and the 4096 bytes of the child's
page equal the corresponding bytes of the parent's page (which fork leaves
unchanged). Hypotheses: the parent's recorded ranges are physically
contiguous with uniform flags (as `map` establishes), pairwise disjoint,
backed by already-allocated pages, and the only mapping outside them is
the Portal page aliased from the kernel space. -/
theorem fork_equivalence (parent kernel : Space) (m : Mem) (portalVpn : Nat)
    (hContig : ∀ a ∈ parent.areas, a.2 ≠ 0 → AreaContig parent a)
    (hDisj : List.Pairwise AreasDisj parent.areas)
    (hLive : ∀ v p fl, parent.pt v = some (p, fl) → p < m.next)
    (hPortalFree : ∀ a ∈ parent.areas, ¬ covers' a portalVpn)
    (hPortal : parent.pt portalVpn = kernel.pt portalVpn)
    (hDom : ∀ v e, parent.pt v = some e →
      (∃ a ∈ parent.areas, covers' a v) ∨ v = portalVpn) :
    ∀ v p fl, parent.pt v = some (p, fl) →
      ∃ c, (forkSpace parent kernel m portalVpn).1.pt v = some (c, fl) ∧
        (forkSpace parent kernel m portalVpn).1.translate (v <<< 12) fl
          = some (c <<< 12) ∧
        (∀ j, j < 4096 →
          (forkSpace parent kernel m portalVpn).2.bytes c j
            = (forkSpace parent kernel m portalVpn).2.bytes p j) ∧
        (∀ j, (forkSpace parent kernel m portalVpn).2.bytes p j
          = m.bytes p j) := by
  intro v p fl hpf
  obtain ⟨hN, hB, hP, hM⟩ :=
    cloneself_go parent parent.areas Space.new m hContig hLive hDisj
  rcases hDom v (p, fl) hpf with ⟨a, ha, hav⟩ | hveq
  · have hvp : v ≠ portalVpn := fun he => hPortalFree a ha (he ▸ hav)
    obtain ⟨c, hc1, hc2⟩ := hM a ha v hav p fl hpf
    have hptv : (forkSpace parent kernel m portalVpn).1.pt v = some (c, fl) := by
      show (Space.copy_leaf_pte_from (Space.cloneself parent Space.new m).1
          kernel portalVpn).pt v = some (c, fl)
      rw [copy_leaf_pte_from_ne _ _ _ _ hvp]
      exact hc1
    refine ⟨c, hptv, translate_of_pt _ v c fl hptv, ?_, ?_⟩
    · intro j hj
      show (List.foldl (cloneArea parent) (Space.new, m) parent.areas).2.bytes c j
        = (List.foldl (cloneArea parent) (Space.new, m) parent.areas).2.bytes p j
      rw [hc2 j hj, hB p j (hLive v p fl hpf)]
    · intro j
      exact hB p j (hLive v p fl hpf)
  · have hP2 : parent.pt v = kernel.pt v := by
      rw [hveq]
      exact hPortal
    have hk : kernel.pt v = some (p, fl) := by
      rw [← hP2]
      exact hpf
    have hptv : (forkSpace parent kernel m portalVpn).1.pt v
        = some (p, fl) := by
      show (Space.copy_leaf_pte_from (Space.cloneself parent Space.new m).1
          kernel portalVpn).pt v = some (p, fl)
      rw [hveq]
      unfold Space.copy_leaf_pte_from
      rw [show kernel.pt portalVpn = some (p, fl) from by
        rw [← hveq]; exact hk]
      show setPte _ portalVpn (p, fl) portalVpn = some (p, fl)
      unfold setPte
      rw [if_pos rfl]
    refine ⟨p, hptv, translate_of_pt _ v p fl hptv, ?_, ?_⟩
    · intro j hj
      rfl
    · intro j
      exact hB p j (hLive v p fl hpf)

/-- Concrete parent space for the C1 witness: one one-page user range at
vpn 0 on physical page 100, plus the Portal alias at vpn 7 on physical
page 200. -/
def c1Parent : Space :=
  ⟨[(0, 1)], fun v =>
    if v = 0 then some (100, VRWU)
    else if v = 7 then some (200, ⟨true, true, true, true, false⟩)
    else none⟩

def c1Kernel : Space :=
  ⟨[], fun v =>
    if v = 7 then some (200, ⟨true, true, true, true, false⟩) else none⟩

def c1Mem : Mem := ⟨fun p j => p + j, 300⟩

/-- Witness for C1 at a concrete one-page parent: the child maps vpn 0 with
the same flags, translate succeeds, and the child's page bytes equal the
parent's. -/
theorem fork_equivalence_witness :
    c1Parent.pt 0 = some (100, VRWU) ∧
    ∃ c, (forkSpace c1Parent c1Kernel c1Mem 7).1.pt 0 = some (c, VRWU) ∧
      (forkSpace c1Parent c1Kernel c1Mem 7).1.translate (0 <<< 12) VRWU
        = some (c <<< 12) ∧
      (∀ j, j < 4096 →
        (forkSpace c1Parent c1Kernel c1Mem 7).2.bytes c j
          = (forkSpace c1Parent c1Kernel c1Mem 7).2.bytes 100 j) ∧
      (∀ j, (forkSpace c1Parent c1Kernel c1Mem 7).2.bytes 100 j
        = c1Mem.bytes 100 j) := by
  have hContig : ∀ a ∈ c1Parent.areas, a.2 ≠ 0 → AreaContig c1Parent a := by
    intro a ha _
    rw [show c1Parent.areas = [(0, 1)] from rfl, List.mem_singleton] at ha
    subst ha
    refine ⟨100, VRWU, rfl, ?_⟩
    intro i hi
    interval_cases i
    rfl
  have hDisj : List.Pairwise AreasDisj c1Parent.areas := by
    rw [show c1Parent.areas = [(0, 1)] from rfl]
    simp
  have hLive : ∀ v p fl, c1Parent.pt v = some (p, fl) → p < c1Mem.next := by
    intro v p fl h
    simp only [c1Parent] at h
    split_ifs at h
    · injection h with hp
      injection hp with h1 h2
      show p < 300
      omega
    · injection h with hp
      injection hp with h1 h2
      show p < 300
      omega
  have hPortalFree : ∀ a ∈ c1Parent.areas, ¬ covers' a 7 := by
    intro a ha hc
    rw [show c1Parent.areas = [(0, 1)] from rfl, List.mem_singleton] at ha
    subst ha
    obtain ⟨h1, h2⟩ := hc
    omega
  have hPortal : c1Parent.pt 7 = c1Kernel.pt 7 := rfl
  have hDom : ∀ v e, c1Parent.pt v = some e →
      (∃ a ∈ c1Parent.areas, covers' a v) ∨ v = 7 := by
    intro v e h
    simp only [c1Parent] at h
    split_ifs at h with h0 h7
    · subst h0
      left
      refine ⟨(0, 1), ?_, ?_⟩
      · rw [show c1Parent.areas = [(0, 1)] from rfl]
        exact List.mem_singleton.mpr rfl
      · exact ⟨by omega, by omega⟩
    · exact Or.inr h7
  exact ⟨rfl, fork_equivalence c1Parent c1Kernel c1Mem 7 hContig hDisj hLive
    hPortalFree hPortal hDom 0 100 VRWU rfl⟩
